import Mathlib

/-!
# Banners: an embedding of the event-log publish/subscribe core

The repository ships the `banners` Python package (BaseBanner / LocalBanner)
together with a demo notebook.  The package implementation itself is not part
of the source tree given here; the notebook documents its observable behaviour
(file layout, sequence-id naming convention, defaults) and the design document
specifies each operation.  The definitions below are therefore modelled from
the spec, with the notebook's documented conventions taken as authoritative
where they speak (in particular the event file naming format).

The local backend stores one JSON file per event under
`root_path/<topic>/<sequence_id>.json`; a directory listing sorted by file
name realises the ordered log.  We model the store as a list of file entries,
sequence ids as natural numbers (the microsecond count encoded by the
documented fixed-width `strftime` format, whose lexicographic order on names
agrees with numeric order on the count), payloads as opaque values, and the
watcher machinery as explicit state with a chronological log of callback
invocations.
-/

namespace Banners

/-- Topics are string identifiers. -/
abbrev Topic := String

/-- Modelled from the spec: a sequence id.  The demo notebook documents the
event file naming convention as `datetime.now().strftime("%Y%m%d-%H%M%S%f")`,
a fixed-width decimal rendering of the creation time at microsecond
resolution; its lexicographic order on names agrees with numeric order on the
microsecond count, which we use directly. -/
abbrev SeqId := Nat

/-- Payloads are opaque JSON-serialisable documents; modelled as numbers. -/
abbrev Payload := Nat

/-- Modelled from the spec: sequence-id generation reads the clock; the
documented naming format contains the timestamp only, with no further
components. -/
def seqIdOf (time : Nat) : SeqId := time

/-- One stored event: the file `root_path/<topic>/<sequence_id>.json` holding
the payload. -/
structure FileEntry where
  topic : Topic
  sid : SeqId
  payload : Payload
deriving DecidableEq

/-- Raw directory scan of one topic: the stored (sequence_id, payload) pairs,
in storage order. -/
def topicFiles (files : List FileEntry) (t : Topic) : List (SeqId × Payload) :=
  (files.filter (fun e => e.topic == t)).map (fun e => (e.sid, e.payload))

/-- Number of events stored in a topic. -/
def countTopic (files : List FileEntry) (t : Topic) : Nat :=
  (topicFiles files t).length

/-- Order used to sort a directory listing by file name. -/
def sidLE (a b : SeqId × Payload) : Prop := a.1 ≤ b.1

/-- Strict version of `sidLE`. -/
def sidLT (a b : SeqId × Payload) : Prop := a.1 < b.1

instance : DecidableRel sidLE := fun a b => inferInstanceAs (Decidable (a.1 ≤ b.1))

instance : DecidableRel sidLT := fun a b => inferInstanceAs (Decidable (a.1 < b.1))

instance : IsTotal (SeqId × Payload) sidLE := ⟨fun a b => Nat.le_total a.1 b.1⟩

instance : IsTrans (SeqId × Payload) sidLE := ⟨fun _ _ _ h1 h2 => Nat.le_trans h1 h2⟩

instance : IsAntisymm (SeqId × Payload) sidLT :=
  ⟨fun _ _ h1 h2 => absurd h2 (Nat.lt_asymm h1)⟩

/-- Modelled from the spec: backend `list` — complete snapshot of a topic,
ascending by sequence id (directory scan sorted by file name).  An unknown
topic yields the empty sequence. -/
def listTopic (files : List FileEntry) (t : Topic) : List (SeqId × Payload) :=
  List.insertionSort sidLE (topicFiles files t)

/-- Writing the event file: one file named by the sequence id inside the topic
directory; a second write to the same name replaces the existing file. -/
def writeFile (files : List FileEntry) (t : Topic) (sid : SeqId) (p : Payload) :
    List FileEntry :=
  files.filter (fun e => !(e.topic == t && e.sid == sid)) ++ [⟨t, sid, p⟩]

/-- Sequence ids of the `keepN` most recent events of the topic: the tail of
the sorted listing. -/
def keepIds (files : List FileEntry) (t : Topic) (keepN : Nat) : List SeqId :=
  ((listTopic files t).drop ((listTopic files t).length - keepN)).map Prod.fst

/-- Modelled from the spec: backend `trim` — delete all but the `keepN` most
recent events (by sequence id) of the topic, oldest first; `keepN = 0` clears
the topic; deleting already-deleted events is a no-op. -/
def trimFiles (files : List FileEntry) (t : Topic) (keepN : Nat) : List FileEntry :=
  files.filter (fun e => !(e.topic == t) || decide (e.sid ∈ keepIds files t keepN))

/-- Modelled from the spec: backend `recent` — the `n` most recent events of
the topic, ascending (oldest of the selection first); `n` omitted or
non-positive returns the full history. -/
def recentEvents (files : List FileEntry) (t : Topic) (numRetrieve : Option Int) :
    List Payload :=
  match numRetrieve with
  | some n =>
      if 0 < n then
        (((listTopic files t).drop ((listTopic files t).length - n.toNat)).map Prod.snd)
      else (listTopic files t).map Prod.snd
  | none => (listTopic files t).map Prod.snd

/-- Modelled from the spec: a transient Watcher `{topic, callback, watermark}`;
presence in the Banner's watcher list is the running flag.  Callbacks are
opaque and identified by a number; `watermark` is the sequence id of the last
delivered event (`none` initially, meaning deliver all history). -/
structure Watcher where
  topic : Topic
  cb : Nat
  watermark : Option SeqId
deriving DecidableEq

/-- Modelled from the spec: the state of one Banner — the backend contents,
the active watchers, the chronological log of callback invocations
`(topic, callback, payload)`, and the `max_events_in_topic` retention
ceiling. -/
structure BState where
  files : List FileEntry
  watchers : List Watcher
  trace : List (Topic × Nat × Payload)
  maxEvents : Nat
deriving DecidableEq

/-- Modelled from the spec: `wave` appends one event (its sequence id stamped
from the clock reading) and then auto-applies the `max_events_in_topic`
retention ceiling to the topic. -/
def waveOp (s : BState) (t : Topic) (p : Payload) (time : Nat) : BState :=
  { s with files := trimFiles (writeFile s.files t (seqIdOf time) p) t s.maxEvents }

/-- Modelled from the spec: `recall_events` delegates to the backend `recent`;
a synchronous read with no side effects, total (an unknown topic yields the
empty list rather than an error). -/
def recall_events (s : BState) (t : Topic) (numRetrieve : Option Int) : List Payload :=
  recentEvents s.files t numRetrieve

/-- Modelled from the spec: `retire` delegates to the backend `trim`. -/
def retireOp (s : BState) (t : Topic) (keepN : Nat) : BState :=
  { s with files := trimFiles s.files t keepN }

/-- Error raised by `watch` when a watcher already exists for the topic. -/
inductive WatchError where
  | alreadyWatching
deriving DecidableEq

/-- The watcher registered for a topic, if any. -/
def findWatcher (ws : List Watcher) (t : Topic) : Option Watcher :=
  ws.find? (fun w => w.topic == t)

/-- Modelled from the spec: `watch` fails with AlreadyWatching when a watcher
for the topic already exists (never silently replaces), otherwise registers a
watcher whose initial watermark is the optional `ignore_before` bound. -/
def watchOp (s : BState) (t : Topic) (cb : Nat) (ignoreBefore : Option SeqId) :
    Except WatchError BState :=
  if (findWatcher s.watchers t).isSome then Except.error WatchError.alreadyWatching
  else Except.ok { s with watchers := s.watchers ++ [⟨t, cb, ignoreBefore⟩] }

/-- Modelled from the spec: `ignore` cancels the topic's polling worker, waits
for it to stop, and removes the watcher entry; a no-op when the topic is not
watched. -/
def ignoreOp (s : BState) (t : Topic) : BState :=
  { s with watchers := s.watchers.filter (fun w => !(w.topic == t)) }

/-- Modelled from the spec: `list_since` — the events strictly beyond the
watermark, ascending. -/
def newEvents (sorted : List (SeqId × Payload)) (wm : Option SeqId) :
    List (SeqId × Payload) :=
  match wm with
  | none => sorted
  | some w => sorted.filter (fun e => decide (w < e.1))

/-- Modelled from the spec: one polling iteration of a topic's worker —
deliver every event past the watermark in ascending sequence-id order
(appending each invocation to the log) and advance the watermark to the last
delivered event.  A no-op when the topic is not watched. -/
def pollOp (s : BState) (t : Topic) : BState :=
  match findWatcher s.watchers t with
  | none => s
  | some w =>
      let delivered := newEvents (listTopic s.files t) w.watermark
      let wm := match delivered.getLast? with
                | none => w.watermark
                | some e => some e.1
      { s with
        trace := s.trace ++ delivered.map (fun e => (t, w.cb, e.2)),
        watchers := s.watchers.map
          (fun v => if v.topic == t then { v with watermark := wm } else v) }

/-- One observable action against a Banner.  `wave` carries the clock reading
that stamps its event; `poll` is one iteration of a topic's polling worker. -/
inductive Act where
  | wave (t : Topic) (p : Payload) (time : Nat)
  | watch (t : Topic) (cb : Nat) (ignoreBefore : Option SeqId)
  | ignore (t : Topic)
  | poll (t : Topic)
  | retire (t : Topic) (keepN : Nat)
deriving DecidableEq

/-- Execute one action; a failed `watch` (AlreadyWatching) leaves the state
unchanged. -/
def step (s : BState) (a : Act) : BState :=
  match a with
  | Act.wave t p time => waveOp s t p time
  | Act.watch t cb ib =>
      match watchOp s t cb ib with
      | Except.ok s2 => s2
      | Except.error _ => s
  | Act.ignore t => ignoreOp s t
  | Act.poll t => pollOp s t
  | Act.retire t k => retireOp s t k

/-- Execute a list of actions in order. -/
def run (s : BState) (as : List Act) : BState := as.foldl step s

/-- Default `max_events_in_topic` retention ceiling. -/
def defaultMaxEvents : Nat := 50

/-- A fresh Banner with the given retention ceiling. -/
def init (maxEvents : Nat) : BState := ⟨[], [], [], maxEvents⟩

/-- A fresh Banner with the default configuration. -/
def initDefault : BState := init defaultMaxEvents

/-- The wave actions for a list of (payload, clock reading) pairs. -/
def waves (t : Topic) (pts : List (Payload × Nat)) : List Act :=
  pts.map (fun q => Act.wave t q.1 q.2)

/-- Recognises a wave action addressed to the given topic. -/
def isWaveTo (t : Topic) : Act → Bool
  | Act.wave u _ _ => u == t
  | _ => false

/-- Recognises a watch action on the given topic. -/
def isWatchOf (t : Topic) : Act → Bool
  | Act.watch u _ _ => u == t
  | _ => false

/-- The (topic, sequence id) keys of the stored event files; distinct keys
mean distinct file paths. -/
def fileKeys (files : List FileEntry) : List (Topic × SeqId) :=
  files.map (fun e => (e.topic, e.sid))

/-! ### Projection lemmas for the operations -/

@[simp] theorem waveOp_watchers (s : BState) (t : Topic) (p : Payload) (time : Nat) :
    (waveOp s t p time).watchers = s.watchers := rfl

@[simp] theorem waveOp_files (s : BState) (t : Topic) (p : Payload) (time : Nat) :
    (waveOp s t p time).files
      = trimFiles (writeFile s.files t (seqIdOf time) p) t s.maxEvents := rfl

@[simp] theorem waveOp_trace (s : BState) (t : Topic) (p : Payload) (time : Nat) :
    (waveOp s t p time).trace = s.trace := rfl

@[simp] theorem waveOp_maxEvents (s : BState) (t : Topic) (p : Payload) (time : Nat) :
    (waveOp s t p time).maxEvents = s.maxEvents := rfl

@[simp] theorem retireOp_watchers (s : BState) (t : Topic) (k : Nat) :
    (retireOp s t k).watchers = s.watchers := rfl

@[simp] theorem retireOp_trace (s : BState) (t : Topic) (k : Nat) :
    (retireOp s t k).trace = s.trace := rfl

@[simp] theorem retireOp_maxEvents (s : BState) (t : Topic) (k : Nat) :
    (retireOp s t k).maxEvents = s.maxEvents := rfl

@[simp] theorem ignoreOp_files (s : BState) (t : Topic) :
    (ignoreOp s t).files = s.files := rfl

@[simp] theorem ignoreOp_trace (s : BState) (t : Topic) :
    (ignoreOp s t).trace = s.trace := rfl

@[simp] theorem ignoreOp_maxEvents (s : BState) (t : Topic) :
    (ignoreOp s t).maxEvents = s.maxEvents := rfl

@[simp] theorem pollOp_files (s : BState) (t : Topic) :
    (pollOp s t).files = s.files := by
  unfold pollOp
  cases findWatcher s.watchers t <;> rfl

@[simp] theorem pollOp_maxEvents (s : BState) (t : Topic) :
    (pollOp s t).maxEvents = s.maxEvents := by
  unfold pollOp
  cases findWatcher s.watchers t <;> rfl

@[simp] theorem step_maxEvents (s : BState) (a : Act) :
    (step s a).maxEvents = s.maxEvents := by
  cases a with
  | wave t p time => rfl
  | watch t cb ib =>
      show (match watchOp s t cb ib with
            | Except.ok s2 => s2
            | Except.error _ => s).maxEvents = s.maxEvents
      unfold watchOp
      by_cases h : (findWatcher s.watchers t).isSome <;> simp [h]
  | ignore t => rfl
  | poll t => exact pollOp_maxEvents s t
  | retire t k => rfl

@[simp] theorem run_nil (s : BState) : run s [] = s := rfl

@[simp] theorem run_cons (s : BState) (a : Act) (as : List Act) :
    run s (a :: as) = run (step s a) as := rfl

theorem run_append (s : BState) (as bs : List Act) :
    run s (as ++ bs) = run (run s as) bs := List.foldl_append step s as bs

@[simp] theorem run_maxEvents (s : BState) (as : List Act) :
    (run s as).maxEvents = s.maxEvents := by
  induction as generalizing s with
  | nil => rfl
  | cons a as ih => rw [run_cons, ih, step_maxEvents]

/-! ### Lemmas about the stored files of a topic -/

theorem topicFiles_cons (e : FileEntry) (files : List FileEntry) (t : Topic) :
    topicFiles (e :: files) t
      = if e.topic = t then (e.sid, e.payload) :: topicFiles files t
        else topicFiles files t := by
  by_cases h : e.topic = t <;> simp [topicFiles, List.filter_cons, h]

theorem topicFiles_append (l1 l2 : List FileEntry) (t : Topic) :
    topicFiles (l1 ++ l2) t = topicFiles l1 t ++ topicFiles l2 t := by
  simp [topicFiles, List.filter_append]

theorem mem_topicFiles {files : List FileEntry} {t : Topic} {x : SeqId × Payload} :
    x ∈ topicFiles files t ↔ (⟨t, x.1, x.2⟩ : FileEntry) ∈ files := by
  simp only [topicFiles, List.mem_map, List.mem_filter, beq_iff_eq]
  constructor
  · rintro ⟨e, ⟨he, ht⟩, hx⟩
    cases e
    cases x
    simp only [Prod.mk.injEq] at hx
    simp_all
  · intro h
    exact ⟨⟨t, x.1, x.2⟩, ⟨h, rfl⟩, rfl⟩

theorem topicFiles_filter (P : FileEntry → Bool) (files : List FileEntry) (t : Topic) :
    topicFiles (files.filter P) t
      = (topicFiles files t).filter (fun x => P ⟨t, x.1, x.2⟩) := by
  induction files with
  | nil => rfl
  | cons e rest ih =>
    by_cases ht : e.topic = t
    · have he : (⟨t, e.sid, e.payload⟩ : FileEntry) = e := by
        cases e
        simp_all
      cases hp : P e <;>
        simp [List.filter_cons, topicFiles_cons, ht, hp, he, ih]
    · cases hp : P e <;>
        simp [List.filter_cons, topicFiles_cons, ht, hp, ih]

/-! ### Lemmas about the sorted listing of a topic -/

theorem listTopic_perm (files : List FileEntry) (t : Topic) :
    List.Perm (listTopic files t) (topicFiles files t) :=
  List.perm_insertionSort sidLE (topicFiles files t)

theorem listTopic_sorted (files : List FileEntry) (t : Topic) :
    List.Sorted sidLE (listTopic files t) :=
  List.sorted_insertionSort sidLE (topicFiles files t)

theorem length_listTopic (files : List FileEntry) (t : Topic) :
    (listTopic files t).length = countTopic files t :=
  (listTopic_perm files t).length_eq

theorem mem_listTopic {files : List FileEntry} {t : Topic} {x : SeqId × Payload} :
    x ∈ listTopic files t ↔ x ∈ topicFiles files t :=
  (listTopic_perm files t).mem_iff

theorem orderedInsert_append_single {a m : SeqId × Payload} (l : List (SeqId × Payload))
    (h : sidLE a m) :
    List.orderedInsert sidLE a (l ++ [m]) = List.orderedInsert sidLE a l ++ [m] := by
  induction l with
  | nil => simp [List.orderedInsert, h]
  | cons b l ih =>
    simp only [List.cons_append, List.orderedInsert, List.append_eq]
    by_cases hab : sidLE a b
    · rw [if_pos hab, if_pos hab]
      simp
    · rw [if_neg hab, if_neg hab, ih]
      simp

theorem insertionSort_append_single {m : SeqId × Payload} (l : List (SeqId × Payload))
    (h : ∀ x ∈ l, sidLE x m) :
    List.insertionSort sidLE (l ++ [m]) = List.insertionSort sidLE l ++ [m] := by
  induction l with
  | nil => rfl
  | cons a l ih =>
    simp only [List.cons_append, List.insertionSort, List.append_eq]
    rw [ih (fun x hx => h x (List.mem_cons_of_mem a hx)),
        orderedInsert_append_single _ (h a (List.mem_cons_self a l))]

theorem listTopic_append_gt {files : List FileEntry} {t : Topic} {sid : SeqId}
    {p : Payload} (h : ∀ x ∈ topicFiles files t, x.1 < sid) :
    listTopic (files ++ [⟨t, sid, p⟩]) t = listTopic files t ++ [(sid, p)] := by
  unfold listTopic
  rw [topicFiles_append]
  have hone : topicFiles [⟨t, sid, p⟩] t = [(sid, p)] := by
    simp [topicFiles]
  rw [hone]
  exact insertionSort_append_single _ (fun x hx => Nat.le_of_lt (h x hx))

/-! ### Characterisation of writing and trimming -/

theorem writeFile_of_fresh {files : List FileEntry} {t : Topic} {sid : SeqId}
    {p : Payload} (h : ∀ x ∈ topicFiles files t, x.1 ≠ sid) :
    writeFile files t sid p = files ++ [⟨t, sid, p⟩] := by
  unfold writeFile
  congr 1
  rw [List.filter_eq_self]
  intro e he
  by_cases ht : e.topic = t
  · have hmem : (e.sid, e.payload) ∈ topicFiles files t := by
      rw [mem_topicFiles]
      have he2 : (⟨t, e.sid, e.payload⟩ : FileEntry) = e := by
        cases e
        simp_all
      rw [he2]
      exact he
    have hne : e.sid ≠ sid := h _ hmem
    simp [ht, hne]
  · simp [ht]

theorem trimFiles_of_le {files : List FileEntry} {t : Topic} {keepN : Nat}
    (h : countTopic files t ≤ keepN) :
    trimFiles files t keepN = files := by
  have hz : (listTopic files t).length - keepN = 0 := by
    rw [length_listTopic]
    omega
  have hk : keepIds files t keepN = (listTopic files t).map Prod.fst := by
    unfold keepIds
    rw [hz, List.drop_zero]
  unfold trimFiles
  rw [hk, List.filter_eq_self]
  intro e he
  by_cases ht : e.topic = t
  · have hmem : (e.sid, e.payload) ∈ listTopic files t := by
      rw [mem_listTopic, mem_topicFiles]
      have he2 : (⟨t, e.sid, e.payload⟩ : FileEntry) = e := by
        cases e
        simp_all
      rw [he2]
      exact he
    have : e.sid ∈ (listTopic files t).map Prod.fst :=
      List.mem_map.mpr ⟨(e.sid, e.payload), hmem, rfl⟩
    simp [this]
  · simp [ht]

theorem waveOp_files_of {s : BState} {t : Topic} (p : Payload) {time : Nat}
    (hfresh : ∀ x ∈ topicFiles s.files t, x.1 < time)
    (hcount : countTopic s.files t < s.maxEvents) :
    (waveOp s t p time).files = s.files ++ [⟨t, time, p⟩] ∧
    listTopic (waveOp s t p time).files t = listTopic s.files t ++ [(time, p)] := by
  have hW : writeFile s.files t (seqIdOf time) p = s.files ++ [⟨t, time, p⟩] :=
    writeFile_of_fresh (fun x hx => Nat.ne_of_lt (hfresh x hx))
  have hc : countTopic (s.files ++ [⟨t, time, p⟩]) t = countTopic s.files t + 1 := by
    unfold countTopic
    rw [topicFiles_append]
    simp [topicFiles]
  have hT : trimFiles (s.files ++ [⟨t, time, p⟩]) t s.maxEvents
      = s.files ++ [⟨t, time, p⟩] := by
    apply trimFiles_of_le
    omega
  have hfiles : (waveOp s t p time).files = s.files ++ [⟨t, time, p⟩] := by
    show trimFiles (writeFile s.files t (seqIdOf time) p) t s.maxEvents = _
    rw [hW, hT]
  exact ⟨hfiles, by rw [hfiles]; exact listTopic_append_gt hfresh⟩

/-! ### Characterisation of a run of waves with increasing clock readings -/

theorem waves_cons (t : Topic) (q : Payload × Nat) (pts : List (Payload × Nat)) :
    waves t (q :: pts) = Act.wave t q.1 q.2 :: waves t pts := rfl

theorem run_waves {pts : List (Payload × Nat)} {s : BState} {t : Topic}
    (hfresh : ∀ x ∈ topicFiles s.files t, ∀ q ∈ pts, x.1 < q.2)
    (hinc : pts.Pairwise (fun a b => a.2 < b.2))
    (hcount : countTopic s.files t + pts.length ≤ s.maxEvents) :
    (run s (waves t pts)).files
        = s.files ++ pts.map (fun q => (⟨t, q.2, q.1⟩ : FileEntry)) ∧
    listTopic (run s (waves t pts)).files t
        = listTopic s.files t ++ pts.map (fun q => (q.2, q.1)) ∧
    (run s (waves t pts)).watchers = s.watchers ∧
    (run s (waves t pts)).trace = s.trace := by
  induction pts generalizing s with
  | nil => simp [waves, run]
  | cons q rest ih =>
    obtain ⟨hq, htail⟩ := List.pairwise_cons.mp hinc
    have hf1 : ∀ x ∈ topicFiles s.files t, x.1 < q.2 :=
      fun x hx => hfresh x hx q (List.mem_cons_self q rest)
    have hc1 : countTopic s.files t < s.maxEvents := by
      simp only [List.length_cons] at hcount
      omega
    obtain ⟨hfiles, hlist⟩ := waveOp_files_of q.1 hf1 hc1
    have hrun : run s (waves t (q :: rest)) = run (waveOp s t q.1 q.2) (waves t rest) := rfl
    have htf : topicFiles (waveOp s t q.1 q.2).files t
        = topicFiles s.files t ++ [(q.2, q.1)] := by
      rw [hfiles, topicFiles_append]
      simp [topicFiles]
    have hfresh1 : ∀ x ∈ topicFiles (waveOp s t q.1 q.2).files t, ∀ q2 ∈ rest, x.1 < q2.2 := by
      rw [htf]
      intro x hx q2 hq2
      rcases List.mem_append.mp hx with h | h
      · exact hfresh x h q2 (List.mem_cons_of_mem q hq2)
      · have : x = (q.2, q.1) := by simpa using h
        rw [this]
        exact hq q2 hq2
    have hcount1 : countTopic (waveOp s t q.1 q.2).files t + rest.length
        ≤ (waveOp s t q.1 q.2).maxEvents := by
      unfold countTopic
      rw [htf, waveOp_maxEvents]
      simp only [List.length_append, List.length_singleton]
      simp only [List.length_cons] at hcount
      unfold countTopic at hcount
      omega
    obtain ⟨f2, l2, w2, tr2⟩ := ih hfresh1 htail hcount1
    refine ⟨?_, ?_, ?_, ?_⟩
    · rw [hrun, f2, hfiles]
      simp [List.append_assoc]
    · rw [hrun, l2, hlist]
      simp [List.append_assoc]
    · rw [hrun, w2, waveOp_watchers]
    · rw [hrun, tr2, waveOp_trace]

/-! ### Characterisation of trimming a strictly sorted topic -/

theorem pairwise_strict_of_le {l : List (SeqId × Payload)}
    (hle : l.Pairwise sidLE) (hne : l.Pairwise (fun a b => a.1 ≠ b.1)) :
    l.Pairwise sidLT := by
  induction l with
  | nil => exact List.Pairwise.nil
  | cons a l ih =>
    obtain ⟨h1, h2⟩ := List.pairwise_cons.mp hle
    obtain ⟨h3, h4⟩ := List.pairwise_cons.mp hne
    exact List.pairwise_cons.mpr
      ⟨fun b hb => Nat.lt_of_le_of_ne (h1 b hb) (h3 b hb), ih h2 h4⟩

theorem filter_mem_drop {M : List (SeqId × Payload)} (hstrict : M.Pairwise sidLT)
    (d : Nat) :
    M.filter (fun x => decide (x.1 ∈ (M.drop d).map Prod.fst)) = M.drop d := by
  have hsplit : M.take d ++ M.drop d = M := List.take_append_drop d M
  have hcross : ∀ x ∈ M.take d, ∀ y ∈ M.drop d, sidLT x y := by
    have h2 : (M.take d ++ M.drop d).Pairwise sidLT := by
      rw [hsplit]
      exact hstrict
    exact (List.pairwise_append.mp h2).2.2
  have htake : (M.take d).filter (fun x => decide (x.1 ∈ (M.drop d).map Prod.fst)) = [] := by
    rw [List.filter_eq_nil_iff]
    intro x hx hmem
    simp only [decide_eq_true_eq, List.mem_map] at hmem
    obtain ⟨y, hy, hxy⟩ := hmem
    have hlt : sidLT x y := hcross x hx y hy
    exact (Nat.ne_of_gt hlt) hxy
  have hdrop : (M.drop d).filter (fun x => decide (x.1 ∈ (M.drop d).map Prod.fst))
      = M.drop d := by
    rw [List.filter_eq_self]
    intro x hx
    simp only [decide_eq_true_eq, List.mem_map]
    exact ⟨x, hx, rfl⟩
  have hstep : M.filter (fun x => decide (x.1 ∈ (M.drop d).map Prod.fst))
      = (M.take d ++ M.drop d).filter (fun x => decide (x.1 ∈ (M.drop d).map Prod.fst)) := by
    rw [hsplit]
  rw [hstep, List.filter_append, htake, hdrop, List.nil_append]

theorem listTopic_trim {files : List FileEntry} {t : Topic} {keepN : Nat}
    (hstrict : (listTopic files t).Pairwise sidLT) :
    listTopic (trimFiles files t keepN) t
      = (listTopic files t).drop ((listTopic files t).length - keepN) := by
  have hK : keepIds files t keepN
      = ((listTopic files t).drop ((listTopic files t).length - keepN)).map Prod.fst := rfl
  have htf : topicFiles (trimFiles files t keepN) t
      = (topicFiles files t).filter (fun x => decide (x.1 ∈ keepIds files t keepN)) := by
    unfold trimFiles
    rw [topicFiles_filter]
    apply List.filter_congr
    intro x hx
    simp
  have hMfilter : (listTopic files t).filter
        (fun x => decide (x.1 ∈ keepIds files t keepN))
      = (listTopic files t).drop ((listTopic files t).length - keepN) := by
    rw [hK]
    exact filter_mem_drop hstrict _
  have hperm : List.Perm (listTopic (trimFiles files t keepN) t)
      ((listTopic files t).drop ((listTopic files t).length - keepN)) := by
    refine (listTopic_perm _ t).trans ?_
    rw [htf, ← hMfilter]
    exact (listTopic_perm files t).symm.filter _
  have hdropsorted : ((listTopic files t).drop
        ((listTopic files t).length - keepN)).Pairwise sidLT :=
    List.Pairwise.sublist (List.drop_sublist _ _) hstrict
  have hnod : (((listTopic files t).drop
        ((listTopic files t).length - keepN)).map Prod.fst).Nodup := by
    have h1 : (((listTopic files t).drop
        ((listTopic files t).length - keepN)).map Prod.fst).Pairwise (· < ·) :=
      List.pairwise_map.mpr hdropsorted
    exact h1.imp Nat.ne_of_lt
  have hsorted2 : (listTopic (trimFiles files t keepN) t).Pairwise sidLT := by
    apply pairwise_strict_of_le (listTopic_sorted _ t)
    have hpm := hperm.map Prod.fst
    have h2 := (hpm.nodup_iff).mpr hnod
    exact List.pairwise_map.mp h2
  exact List.eq_of_perm_of_sorted hperm hsorted2 hdropsorted

/-! ### Recall over a canonical run of waves -/

@[simp] theorem retireOp_files (s : BState) (t : Topic) (k : Nat) :
    (retireOp s t k).files = trimFiles s.files t k := rfl

@[simp] theorem step_wave (s : BState) (t : Topic) (p : Payload) (time : Nat) :
    step s (Act.wave t p time) = waveOp s t p time := rfl

@[simp] theorem step_retire (s : BState) (t : Topic) (k : Nat) :
    step s (Act.retire t k) = retireOp s t k := rfl

@[simp] theorem step_ignore_eq (s : BState) (t : Topic) :
    step s (Act.ignore t) = ignoreOp s t := rfl

@[simp] theorem step_poll (s : BState) (t : Topic) :
    step s (Act.poll t) = pollOp s t := rfl

theorem step_watch_eq (s : BState) (t : Topic) (cb : Nat) (ib : Option SeqId) :
    step s (Act.watch t cb ib)
      = match watchOp s t cb ib with
        | Except.ok s2 => s2
        | Except.error _ => s := rfl

theorem step_watch_files (s : BState) (t : Topic) (cb : Nat) (ib : Option SeqId) :
    (step s (Act.watch t cb ib)).files = s.files := by
  show (match watchOp s t cb ib with
        | Except.ok s2 => s2
        | Except.error _ => s).files = s.files
  unfold watchOp
  by_cases h : (findWatcher s.watchers t).isSome <;> simp [h]

theorem recall_none_eq (s : BState) (t : Topic) :
    recall_events s t none = (listTopic s.files t).map Prod.snd := rfl

theorem recall_some_eq (s : BState) (t : Topic) (n : Int) :
    recall_events s t (some n)
      = if 0 < n then
          ((listTopic s.files t).drop
            ((listTopic s.files t).length - n.toNat)).map Prod.snd
        else (listTopic s.files t).map Prod.snd := rfl

theorem map_snd_swap (l : List (Payload × Nat)) :
    (l.map (fun q => ((q.2 : SeqId), (q.1 : Payload)))).map Prod.snd = l.map Prod.fst := by
  induction l with
  | nil => rfl
  | cons q l ih => simp [ih]

theorem listTopic_waves_init (t : Topic) {pts : List (Payload × Nat)}
    (hinc : pts.Pairwise (fun a b => a.2 < b.2))
    (hlen : pts.length ≤ defaultMaxEvents) :
    listTopic (run initDefault (waves t pts)).files t
        = pts.map (fun q => (q.2, q.1)) ∧
    (run initDefault (waves t pts)).watchers = [] ∧
    (run initDefault (waves t pts)).trace = [] := by
  have hempty : topicFiles initDefault.files t = [] := rfl
  have hfr : ∀ x ∈ topicFiles initDefault.files t, ∀ q ∈ pts, x.1 < q.2 := by
    rw [hempty]
    intro x hx
    exact absurd hx (List.not_mem_nil x)
  have hct : countTopic initDefault.files t + pts.length ≤ initDefault.maxEvents := by
    have hc : countTopic initDefault.files t = 0 := rfl
    have hm : initDefault.maxEvents = defaultMaxEvents := rfl
    rw [hc, hm]
    omega
  have h := run_waves hfr hinc hct
  obtain ⟨_, hl, hw, htr⟩ := h
  have hl0 : listTopic initDefault.files t = [] := rfl
  rw [hl0, List.nil_append] at hl
  have hw0 : initDefault.watchers = [] := rfl
  have htr0 : initDefault.trace = [] := rfl
  rw [hw0] at hw
  rw [htr0] at htr
  exact ⟨hl, hw, htr⟩

theorem recall_waves_eq {t : Topic} {pts : List (Payload × Nat)}
    (hinc : pts.Pairwise (fun a b => a.2 < b.2))
    (hlen : pts.length ≤ defaultMaxEvents) :
    recall_events (run initDefault (waves t pts)) t none = pts.map Prod.fst := by
  rw [recall_none_eq, (listTopic_waves_init t hinc hlen).1, map_snd_swap]

theorem listTopic_waves_strict {pts : List (Payload × Nat)}
    (hinc : pts.Pairwise (fun a b => a.2 < b.2)) :
    (pts.map (fun q => ((q.2 : SeqId), (q.1 : Payload)))).Pairwise sidLT :=
  List.pairwise_map.mpr hinc

/-! ### Claim C1 -/

set_option maxRecDepth 1000000 in
/-- C1, counterexample: with the default configuration (`max_events_in_topic`
= 50) the retention ceiling is auto-applied after each wave, so after 51 waves
of payloads 0..50 (at strictly increasing clock readings) `recall` returns
only the 50 most recent payloads, not the full sequence the claim
promises. -/
theorem recall_after_51_waves_drops_oldest :
    recall_events
        (run initDefault ((List.range 51).map (fun i => Act.wave "test" i (i + 1))))
        "test" none
      = (List.range 51).drop 1 ∧
    (List.range 51).drop 1 ≠ List.range 51 := by
  constructor
  · decide
  · decide

/-- C1 (amended): for every topic and payload sequence `p1..pk` waved at
strictly increasing clock readings with `k` at most `max_events_in_topic`,
and no intervening or subsequent retire, `recall_events` returns exactly
`[p1, ..., pk]` oldest to newest; beyond the ceiling the oldest events are
trimmed away. -/
theorem recall_returns_waves_in_order (t : Topic) (pts : List (Payload × Nat))
    (hinc : pts.Pairwise (fun a b => a.2 < b.2))
    (hlen : pts.length ≤ defaultMaxEvents) :
    recall_events (run initDefault (waves t pts)) t none = pts.map Prod.fst :=
  recall_waves_eq hinc hlen

/-- C1 witness: three waves of payloads 10, 20, 30 are recalled in wave
order. -/
theorem recall_returns_waves_in_order_witness :
    ([((10 : Payload), (1 : Nat)), (20, 2), (30, 3)]).Pairwise (fun a b => a.2 < b.2) ∧
    ([((10 : Payload), (1 : Nat)), (20, 2), (30, 3)]).length ≤ defaultMaxEvents ∧
    recall_events (run initDefault (waves "test" [(10, 1), (20, 2), (30, 3)]))
        "test" none = [10, 20, 30] :=
  ⟨by decide, by decide,
    recall_returns_waves_in_order "test" [(10, 1), (20, 2), (30, 3)]
      (by decide) (by decide)⟩

/-! ### Claim C2 -/

/-- C2, counterexample: the documented sequence-id format is the timestamp
alone, with no tie-breaking discriminator, so two waves within the same
minimum clock resolution receive the same sequence id; the second write
replaces the first event file, leaving one stored event instead of two. -/
theorem same_instant_waves_collide :
    seqIdOf 5 = seqIdOf 5 ∧
    countTopic (run initDefault [Act.wave "test" 1 5, Act.wave "test" 2 5]).files
        "test" = 1 ∧
    recall_events (run initDefault [Act.wave "test" 1 5, Act.wave "test" 2 5])
        "test" none = [2] :=
  ⟨rfl, by decide, by decide⟩

/-- C2 (amended): two waves to a topic taken at distinct clock readings (at
the minimum resolution of the timestamp format) receive distinct sequence
ids, and sorting by sequence id reproduces creation order; waves within the
same minimum resolution collide, the later overwriting the earlier, since the
generated id carries no tie-breaking discriminator. -/
theorem seqid_distinct_for_distinct_times (t : Topic) (p1 p2 : Payload)
    (t1 t2 : Nat) (h : t1 < t2) :
    seqIdOf t1 ≠ seqIdOf t2 ∧
    recall_events (run initDefault [Act.wave t p1 t1, Act.wave t p2 t2]) t none
      = [p1, p2] := by
  constructor
  · exact Nat.ne_of_lt h
  · have hact : [Act.wave t p1 t1, Act.wave t p2 t2] = waves t [(p1, t1), (p2, t2)] := rfl
    rw [hact]
    have hinc : ([(p1, t1), (p2, t2)] : List (Payload × Nat)).Pairwise
        (fun a b => a.2 < b.2) := by
      refine List.pairwise_cons.mpr ⟨?_, ?_⟩
      · intro q hq
        have : q = (p2, t2) := by simpa using hq
        rw [this]
        exact h
      · simp
    exact recall_waves_eq hinc (by simp [defaultMaxEvents])

/-- C2 amended-claim witness: waves at clock readings 5 and 6. -/
theorem seqid_distinct_for_distinct_times_witness :
    5 < 6 ∧
    (seqIdOf 5 ≠ seqIdOf 6 ∧
      recall_events (run initDefault [Act.wave "test" 1 5, Act.wave "test" 2 6])
          "test" none = [1, 2]) :=
  ⟨by decide, seqid_distinct_for_distinct_times "test" 1 2 5 6 (by decide)⟩

/-! ### Claim C7 -/

/-- C7: for a topic holding the payloads of `pts` (waved at strictly
increasing clock readings, within the retention ceiling), `retire(topic,
keep_n)` followed by `recall(topic)` yields exactly the `min(keep_n, k)` most
recently waved payloads in wave order — oldest events are deleted first, and
`keep_n = 0` clears the topic. -/
theorem retire_then_recall (t : Topic) (pts : List (Payload × Nat)) (keepN : Nat)
    (hinc : pts.Pairwise (fun a b => a.2 < b.2))
    (hlen : pts.length ≤ defaultMaxEvents) :
    recall_events (run initDefault (waves t pts ++ [Act.retire t keepN])) t none
      = (pts.map Prod.fst).drop (pts.length - keepN) ∧
    (recall_events (run initDefault (waves t pts ++ [Act.retire t keepN])) t
        none).length ≤ keepN := by
  have hrun : run initDefault (waves t pts ++ [Act.retire t keepN])
      = retireOp (run initDefault (waves t pts)) t keepN := by
    rw [run_append]
    rfl
  have hM := (listTopic_waves_init t hinc hlen).1
  have hstrict : (listTopic (run initDefault (waves t pts)).files t).Pairwise sidLT := by
    rw [hM]
    exact listTopic_waves_strict hinc
  have hmain : recall_events (run initDefault (waves t pts ++ [Act.retire t keepN]))
      t none = (pts.map Prod.fst).drop (pts.length - keepN) := by
    rw [hrun, recall_none_eq, retireOp_files, listTopic_trim hstrict, hM,
        List.map_drop, map_snd_swap, List.length_map]
  refine ⟨hmain, ?_⟩
  rw [hmain, List.length_drop, List.length_map]
  omega

/-- C7 witness: three payloads retired down to two. -/
theorem retire_then_recall_witness :
    ([((10 : Payload), (1 : Nat)), (20, 2), (30, 3)]).Pairwise (fun a b => a.2 < b.2) ∧
    (recall_events (run initDefault
          (waves "test" [(10, 1), (20, 2), (30, 3)] ++ [Act.retire "test" 2]))
        "test" none = [20, 30] ∧
      (recall_events (run initDefault
          (waves "test" [(10, 1), (20, 2), (30, 3)] ++ [Act.retire "test" 2]))
        "test" none).length ≤ 2) :=
  ⟨by decide,
    retire_then_recall "test" [(10, 1), (20, 2), (30, 3)] 2 (by decide) (by decide)⟩

/-! ### Claim C8 -/

/-- C8: for a topic holding the payloads of `pts` (waved at strictly
increasing clock readings, within the retention ceiling), `recall(topic, n)`
with positive `n` returns exactly the last `n` payloads waved, in wave order
(oldest of the selection first); with `n` non-positive or omitted, the full
history is returned. -/
theorem recall_with_num_retrieve (t : Topic) (pts : List (Payload × Nat)) (n : Int)
    (hinc : pts.Pairwise (fun a b => a.2 < b.2))
    (hlen : pts.length ≤ defaultMaxEvents) :
    recall_events (run initDefault (waves t pts)) t (some n)
      = (if 0 < n then (pts.map Prod.fst).drop (pts.length - n.toNat)
         else pts.map Prod.fst) ∧
    recall_events (run initDefault (waves t pts)) t none = pts.map Prod.fst := by
  have hM := (listTopic_waves_init t hinc hlen).1
  constructor
  · rw [recall_some_eq]
    by_cases hn : 0 < n
    · rw [if_pos hn, if_pos hn, hM, List.map_drop, map_snd_swap, List.length_map]
    · rw [if_neg hn, if_neg hn, hM, map_snd_swap]
  · exact recall_waves_eq hinc hlen

/-- C8 witness: of three waved payloads, `recall` with `num_retrieve = 2`
returns the last two, and `recall` with no bound returns all three. -/
theorem recall_with_num_retrieve_witness :
    ([((10 : Payload), (1 : Nat)), (20, 2), (30, 3)]).Pairwise (fun a b => a.2 < b.2) ∧
    (recall_events (run initDefault (waves "test" [(10, 1), (20, 2), (30, 3)]))
        "test" (some 2)
      = (if (0 : Int) < 2 then
          (([((10 : Payload), (1 : Nat)), (20, 2), (30, 3)]).map Prod.fst).drop
            (([((10 : Payload), (1 : Nat)), (20, 2), (30, 3)]).length - (2 : Int).toNat)
         else ([((10 : Payload), (1 : Nat)), (20, 2), (30, 3)]).map Prod.fst) ∧
      recall_events (run initDefault (waves "test" [(10, 1), (20, 2), (30, 3)]))
        "test" none = [10, 20, 30]) :=
  ⟨by decide,
    recall_with_num_retrieve "test" [(10, 1), (20, 2), (30, 3)] 2
      (by decide) (by decide)⟩

/-! ### Claim C10 -/

theorem keepIds_zero (files : List FileEntry) (t : Topic) :
    keepIds files t 0 = [] := by
  unfold keepIds
  rw [Nat.sub_zero, List.drop_length]
  rfl

theorem trimFiles_zero (files : List FileEntry) (t : Topic) :
    trimFiles files t 0 = files.filter (fun e => !(e.topic == t)) := by
  unfold trimFiles
  apply List.filter_congr
  intro e he
  rw [keepIds_zero]
  simp

theorem topicFiles_trim_zero (files : List FileEntry) (t : Topic) :
    topicFiles (trimFiles files t 0) t = [] := by
  rw [trimFiles_zero, topicFiles_filter]
  rw [List.filter_eq_nil_iff]
  intro x hx
  simp

theorem recall_events_of_empty {s : BState} {t : Topic}
    (h : topicFiles s.files t = []) (n : Option Int) :
    recall_events s t n = [] := by
  have hl : listTopic s.files t = [] := by
    unfold listTopic
    rw [h]
    rfl
  show recentEvents s.files t n = []
  unfold recentEvents
  cases n with
  | none => rw [hl]; rfl
  | some n => by_cases hn : 0 < n <;> simp [hn, hl]

/-- C10: retiring a topic to zero kept events empties it, and doing so twice
in a row is idempotent — the topic is empty after each call, the second call
is a no-op on the whole Banner state, and no error arises (the operation is
total). -/
theorem retire_zero_twice_idempotent (s : BState) (t : Topic) :
    recall_events (retireOp s t 0) t none = [] ∧
    recall_events (retireOp (retireOp s t 0) t 0) t none = [] ∧
    retireOp (retireOp s t 0) t 0 = retireOp s t 0 := by
  have h1 : topicFiles (retireOp s t 0).files t = [] := by
    rw [retireOp_files]
    exact topicFiles_trim_zero s.files t
  have h2 : topicFiles (retireOp (retireOp s t 0) t 0).files t = [] := by
    rw [retireOp_files]
    exact topicFiles_trim_zero (retireOp s t 0).files t
  have h3 : trimFiles (retireOp s t 0).files t 0 = (retireOp s t 0).files := by
    rw [trimFiles_zero]
    rw [List.filter_eq_self]
    intro e he
    rw [retireOp_files, trimFiles_zero] at he
    exact (List.mem_filter.mp he).2
  refine ⟨recall_events_of_empty h1 none, recall_events_of_empty h2 none, ?_⟩
  show { retireOp s t 0 with files := trimFiles (retireOp s t 0).files t 0 }
      = retireOp s t 0
  rw [h3]

/-! ### Distinct file keys and the retention ceiling (claim C6) -/

theorem topicFiles_trim (files : List FileEntry) (t : Topic) (keepN : Nat) :
    topicFiles (trimFiles files t keepN) t
      = (topicFiles files t).filter (fun x => decide (x.1 ∈ keepIds files t keepN)) := by
  unfold trimFiles
  rw [topicFiles_filter]
  apply List.filter_congr
  intro x hx
  simp

theorem keepIds_length_le (files : List FileEntry) (t : Topic) (keepN : Nat) :
    (keepIds files t keepN).length ≤ keepN := by
  unfold keepIds
  rw [List.length_map, List.length_drop]
  omega

theorem writeFile_keys_nodup {files : List FileEntry} {t : Topic} {sid : SeqId}
    {p : Payload} (h : (fileKeys files).Nodup) :
    (fileKeys (writeFile files t sid p)).Nodup := by
  unfold writeFile fileKeys
  rw [List.map_append]
  have hsub : List.Sublist
      ((files.filter (fun e => !(e.topic == t && e.sid == sid))).map
        (fun e => (e.topic, e.sid)))
      (files.map (fun e => (e.topic, e.sid))) :=
    (List.filter_sublist files).map _
  apply List.Nodup.append (hsub.nodup h) (List.nodup_singleton _)
  intro x hx hx2
  have hxe : x = (t, sid) := by simpa using hx2
  obtain ⟨e, he, hkey⟩ := List.mem_map.mp hx
  obtain ⟨he1, he2⟩ := List.mem_filter.mp he
  rw [hxe] at hkey
  have h1 : e.topic = t := congrArg Prod.fst hkey
  have h2 : e.sid = sid := congrArg Prod.snd hkey
  simp [h1, h2] at he2

theorem trimFiles_keys_sublist (files : List FileEntry) (t : Topic) (keepN : Nat) :
    List.Sublist (fileKeys (trimFiles files t keepN)) (fileKeys files) :=
  (List.filter_sublist files).map _

theorem step_keys_nodup {s : BState} (a : Act) (hs : (fileKeys s.files).Nodup) :
    (fileKeys (step s a).files).Nodup := by
  cases a with
  | wave u p time =>
    rw [step_wave, waveOp_files]
    exact ((trimFiles_keys_sublist _ u s.maxEvents).nodup) (writeFile_keys_nodup hs)
  | watch u cb ib => rw [step_watch_files]; exact hs
  | ignore u => rw [step_ignore_eq, ignoreOp_files]; exact hs
  | poll u => rw [step_poll, pollOp_files]; exact hs
  | retire u k =>
    rw [step_retire, retireOp_files]
    exact (trimFiles_keys_sublist _ u k).nodup hs

theorem run_keys_nodup {s : BState} (as : List Act) (hs : (fileKeys s.files).Nodup) :
    (fileKeys (run s as).files).Nodup := by
  induction as generalizing s with
  | nil => exact hs
  | cons a as ih => exact ih (step_keys_nodup a hs)

theorem nodup_topic_sids {files : List FileEntry} (t : Topic)
    (h : (fileKeys files).Nodup) :
    ((topicFiles files t).map Prod.fst).Nodup := by
  induction files with
  | nil => exact List.nodup_nil
  | cons e rest ih =>
    have hkeys : fileKeys (e :: rest) = (e.topic, e.sid) :: fileKeys rest := rfl
    rw [hkeys] at h
    obtain ⟨hne, hrest⟩ := List.nodup_cons.mp h
    rw [topicFiles_cons]
    by_cases ht : e.topic = t
    · rw [if_pos ht, List.map_cons, List.nodup_cons]
      refine ⟨?_, ih hrest⟩
      intro hmem
      obtain ⟨x, hx, hfst⟩ := List.mem_map.mp hmem
      have hxm : (⟨t, x.1, x.2⟩ : FileEntry) ∈ rest := mem_topicFiles.mp hx
      have : (t, x.1) ∈ fileKeys rest :=
        List.mem_map.mpr ⟨⟨t, x.1, x.2⟩, hxm, rfl⟩
      rw [hfst, ← ht] at this
      exact hne this
    · rw [if_neg ht]
      exact ih hrest

theorem countTopic_trim_le {files : List FileEntry} (t : Topic) (keepN : Nat)
    (hnod : (fileKeys files).Nodup) :
    countTopic (trimFiles files t keepN) t ≤ keepN := by
  have htf := topicFiles_trim files t keepN
  have hcount : countTopic (trimFiles files t keepN) t
      = ((topicFiles (trimFiles files t keepN) t).map Prod.fst).length := by
    unfold countTopic
    rw [List.length_map]
  rw [hcount, htf]
  have hsub : List.Sublist
      (((topicFiles files t).filter
        (fun x => decide (x.1 ∈ keepIds files t keepN))).map Prod.fst)
      ((topicFiles files t).map Prod.fst) :=
    (List.filter_sublist _).map _
  have hnd : (((topicFiles files t).filter
        (fun x => decide (x.1 ∈ keepIds files t keepN))).map Prod.fst).Nodup :=
    hsub.nodup (nodup_topic_sids t hnod)
  have hsubset : (((topicFiles files t).filter
        (fun x => decide (x.1 ∈ keepIds files t keepN))).map Prod.fst)
      ⊆ keepIds files t keepN := by
    intro y hy
    obtain ⟨x, hx, hfst⟩ := List.mem_map.mp hy
    have := (List.mem_filter.mp hx).2
    rw [← hfst]
    simpa using this
  calc (((topicFiles files t).filter
        (fun x => decide (x.1 ∈ keepIds files t keepN))).map Prod.fst).length
      ≤ (keepIds files t keepN).length := (hnd.subperm hsubset).length_le
    _ ≤ keepN := keepIds_length_le files t keepN

/-- C6: in any run of the Banner, immediately after each wave completes the
number of events stored in the waved topic is at most the `max_events_in_topic`
ceiling of the Banner's configuration (50 by default) — the retention ceiling
is applied automatically after every wave, not only on explicit retire. -/
theorem wave_respects_retention_ceiling (m : Nat) (as : List Act) (t : Topic)
    (p : Payload) (time : Nat) :
    defaultMaxEvents = 50 ∧
    countTopic ((run (init m) (as ++ [Act.wave t p time])).files) t ≤ m := by
  refine ⟨rfl, ?_⟩
  rw [run_append]
  have hrun : run (run (init m) as) [Act.wave t p time]
      = waveOp (run (init m) as) t p time := rfl
  rw [hrun, waveOp_files]
  have hm : (run (init m) as).maxEvents = m := run_maxEvents _ _
  have hnod : (fileKeys (run (init m) as).files).Nodup :=
    run_keys_nodup as List.nodup_nil
  rw [hm]
  exact countTopic_trim_le t m (writeFile_keys_nodup hnod)

/-! ### Claim C9 -/

theorem step_no_topic {t : Topic} {s : BState} {a : Act}
    (hs : ∀ e ∈ s.files, e.topic ≠ t) (ha : isWaveTo t a = false) :
    ∀ e ∈ (step s a).files, e.topic ≠ t := by
  cases a with
  | wave u p time =>
    have hu : u ≠ t := by simpa [isWaveTo] using ha
    intro e he
    simp only [step_wave, waveOp_files, trimFiles] at he
    have he1 : e ∈ writeFile s.files u (seqIdOf time) p := (List.mem_filter.mp he).1
    unfold writeFile at he1
    rcases List.mem_append.mp he1 with h | h
    · exact hs e (List.mem_filter.mp h).1
    · have : e = ⟨u, seqIdOf time, p⟩ := by simpa using h
      rw [this]
      exact hu
  | watch u cb ib =>
    intro e he
    rw [step_watch_files] at he
    exact hs e he
  | ignore u =>
    intro e he
    simp only [step_ignore_eq, ignoreOp_files] at he
    exact hs e he
  | poll u =>
    intro e he
    simp only [step_poll, pollOp_files] at he
    exact hs e he
  | retire u k =>
    intro e he
    simp only [step_retire, retireOp_files, trimFiles] at he
    exact hs e (List.mem_filter.mp he).1

theorem run_no_wave {t : Topic} {s : BState} {as : List Act}
    (hs : ∀ e ∈ s.files, e.topic ≠ t)
    (h : ∀ a ∈ as, isWaveTo t a = false) :
    ∀ e ∈ (run s as).files, e.topic ≠ t := by
  induction as generalizing s with
  | nil => exact hs
  | cons a as ih =>
    exact ih (step_no_topic hs (h a (List.mem_cons_self a as)))
      (fun b hb => h b (List.mem_cons_of_mem a hb))

theorem topicFiles_eq_nil_of {files : List FileEntry} {t : Topic}
    (h : ∀ e ∈ files, e.topic ≠ t) : topicFiles files t = [] := by
  unfold topicFiles
  have : files.filter (fun e => e.topic == t) = [] := by
    rw [List.filter_eq_nil_iff]
    intro e he
    simp [h e he]
  rw [this]
  rfl

/-- C9: for a topic to which no event has ever been waved — whatever other
actions the Banner performed — `recall_events` returns the empty list for
every `num_retrieve` argument; the operation is total, so an unknown topic
behaves as an empty sequence rather than an error. -/
theorem recall_unwaved_topic (t : Topic) (as : List Act) (n : Option Int)
    (h : ∀ a ∈ as, isWaveTo t a = false) :
    recall_events (run initDefault as) t n = [] := by
  have hs : ∀ e ∈ initDefault.files, e.topic ≠ t := by
    intro e he
    exact absurd he (List.not_mem_nil e)
  exact recall_events_of_empty (topicFiles_eq_nil_of (run_no_wave hs h)) n

/-- C9 witness: a run that waves and retires on another topic and watches a
third; recalling the never-waved topic yields the empty list. -/
theorem recall_unwaved_topic_witness :
    ([Act.wave "other" 1 1, Act.watch "other" 0 none,
        Act.retire "other" 0].all (fun a => !(isWaveTo "nonexistent-topic" a))) = true ∧
    recall_events (run initDefault [Act.wave "other" 1 1, Act.watch "other" 0 none,
        Act.retire "other" 0]) "nonexistent-topic" none = [] :=
  ⟨by decide,
    recall_unwaved_topic "nonexistent-topic"
      [Act.wave "other" 1 1, Act.watch "other" 0 none, Act.retire "other" 0]
      none (by decide)⟩

/-! ### Claim C5 -/

theorem isSome_findWatcher_append (ws : List Watcher) {w : Watcher} {t : Topic}
    (hw : w.topic = t) : (findWatcher (ws ++ [w]) t).isSome = true := by
  induction ws with
  | nil =>
    simp [findWatcher, List.find?_cons, hw]
  | cons v ws ih =>
    unfold findWatcher at ih ⊢
    rw [List.cons_append, List.find?_cons]
    by_cases hv : (v.topic == t) = true
    · rw [hv]
      rfl
    · have hv2 : (v.topic == t) = false := by simpa using hv
      rw [hv2]
      exact ih

/-- C5: on a Banner already watching a topic, a second `watch` call for the
same topic fails with AlreadyWatching, does not replace the existing Watcher,
and leaves the whole state — including the existing Watcher's callback and
watermark — unchanged. -/
theorem watch_twice_fails (s : BState) (t : Topic) (cb : Nat) (ib : Option SeqId)
    (cb2 : Nat) (ib2 : Option SeqId) (h : findWatcher s.watchers t = none) :
    watchOp s t cb ib
      = Except.ok { s with watchers := s.watchers ++ [⟨t, cb, ib⟩] } ∧
    watchOp { s with watchers := s.watchers ++ [⟨t, cb, ib⟩] } t cb2 ib2
      = Except.error WatchError.alreadyWatching ∧
    step { s with watchers := s.watchers ++ [⟨t, cb, ib⟩] } (Act.watch t cb2 ib2)
      = { s with watchers := s.watchers ++ [⟨t, cb, ib⟩] } := by
  have h1 : watchOp s t cb ib
      = Except.ok { s with watchers := s.watchers ++ [⟨t, cb, ib⟩] } := by
    unfold watchOp
    rw [h]
    rfl
  have hsome : (findWatcher
      (({ s with watchers := s.watchers ++ [⟨t, cb, ib⟩] } : BState)).watchers
      t).isSome = true := by
    show (findWatcher (s.watchers ++ [⟨t, cb, ib⟩]) t).isSome = true
    exact isSome_findWatcher_append s.watchers rfl
  have h2 : watchOp { s with watchers := s.watchers ++ [⟨t, cb, ib⟩] } t cb2 ib2
      = Except.error WatchError.alreadyWatching := by
    unfold watchOp
    simp [hsome]
  refine ⟨h1, h2, ?_⟩
  rw [step_watch_eq, h2]

/-- C5 witness: a first watch on a fresh Banner succeeds; the second watch on
the same topic (different callback and ignore_before) errors and changes
nothing. -/
theorem watch_twice_fails_witness :
    findWatcher initDefault.watchers "test" = none ∧
    (watchOp initDefault "test" 1 none
        = Except.ok { initDefault with
            watchers := initDefault.watchers ++ [(⟨"test", 1, none⟩ : Watcher)] } ∧
      watchOp { initDefault with
            watchers := initDefault.watchers ++ [(⟨"test", 1, none⟩ : Watcher)] } "test" 2 (some 7)
        = Except.error WatchError.alreadyWatching ∧
      step { initDefault with
            watchers := initDefault.watchers ++ [(⟨"test", 1, none⟩ : Watcher)] }
          (Act.watch "test" 2 (some 7))
        = { initDefault with
            watchers := initDefault.watchers ++ [(⟨"test", 1, none⟩ : Watcher)] }) :=
  ⟨rfl, watch_twice_fails initDefault "test" 1 none 2 (some 7) rfl⟩

/-! ### Claim C4 -/

theorem findWatcher_ignoreOp (s : BState) (t : Topic) :
    findWatcher (ignoreOp s t).watchers t = none := by
  show findWatcher (s.watchers.filter (fun w => !(w.topic == t))) t = none
  unfold findWatcher
  rw [List.find?_eq_none]
  intro w hw
  have h2 : (w.topic == t) = false := by
    have := (List.mem_filter.mp hw).2
    simpa using this
  simp [h2]

theorem step_not_watched {s : BState} {t : Topic} {a : Act}
    (hs : findWatcher s.watchers t = none) (ha : isWatchOf t a = false) :
    findWatcher (step s a).watchers t = none := by
  cases a with
  | wave u p time => rw [step_wave, waveOp_watchers]; exact hs
  | watch u cb ib =>
    have hu : u ≠ t := by simpa [isWatchOf] using ha
    rw [step_watch_eq]
    unfold watchOp
    by_cases hw : (findWatcher s.watchers u).isSome = true
    · simp only [hw, if_true]
      exact hs
    · have hw2 : (findWatcher s.watchers u).isSome = false := by simpa using hw
      simp only [hw2, Bool.false_eq_true, if_false]
      show findWatcher (s.watchers ++ [⟨u, cb, ib⟩]) t = none
      unfold findWatcher at hs ⊢
      rw [List.find?_eq_none] at hs ⊢
      intro w hwm
      rcases List.mem_append.mp hwm with h | h
      · exact hs w h
      · have : w = ⟨u, cb, ib⟩ := by simpa using h
        rw [this]
        simp [hu]
  | ignore u =>
    rw [step_ignore_eq]
    show findWatcher (s.watchers.filter (fun w => !(w.topic == u))) t = none
    unfold findWatcher at hs ⊢
    rw [List.find?_eq_none] at hs ⊢
    intro w hw
    exact hs w (List.mem_filter.mp hw).1
  | poll u =>
    rw [step_poll]
    unfold pollOp
    cases hfw : findWatcher s.watchers u with
    | none => exact hs
    | some w =>
      show findWatcher (s.watchers.map _) t = none
      unfold findWatcher at hs ⊢
      rw [List.find?_eq_none] at hs ⊢
      intro v hv
      obtain ⟨v0, hv0, hveq⟩ := List.mem_map.mp hv
      have htopic : v.topic = v0.topic := by
        rw [← hveq]
        by_cases hc : (v0.topic == u) = true
        · simp [hc]
        · have hc2 : (v0.topic == u) = false := by simpa using hc
          simp [hc2]
      intro hcon
      apply hs v0 hv0
      rw [← htopic]
      exact hcon
  | retire u k => rw [step_retire, retireOp_watchers]; exact hs

theorem step_trace_no_topic {s : BState} {t : Topic} (a : Act)
    (hs : findWatcher s.watchers t = none) :
    ((step s a).trace).filter (fun e => e.1 == t)
      = (s.trace).filter (fun e => e.1 == t) := by
  cases a with
  | wave u p time => rw [step_wave, waveOp_trace]
  | watch u cb ib =>
    rw [step_watch_eq]
    unfold watchOp
    by_cases hw : (findWatcher s.watchers u).isSome = true
    · simp only [hw, if_true]
    · have hw2 : (findWatcher s.watchers u).isSome = false := by simpa using hw
      simp only [hw2, Bool.false_eq_true, if_false]
  | ignore u => rw [step_ignore_eq, ignoreOp_trace]
  | poll u =>
    rw [step_poll]
    unfold pollOp
    cases hfw : findWatcher s.watchers u with
    | none => rfl
    | some w =>
      have hut : u ≠ t := by
        intro he
        rw [he, hs] at hfw
        exact Option.noConfusion hfw
      show (s.trace ++ (newEvents (listTopic s.files u) w.watermark).map
          (fun e => (u, w.cb, e.2))).filter (fun e => e.1 == t)
        = (s.trace).filter (fun e => e.1 == t)
      rw [List.filter_append]
      have hnil : ((newEvents (listTopic s.files u) w.watermark).map
          (fun e => (u, w.cb, e.2))).filter (fun e => e.1 == t) = [] := by
        rw [List.filter_eq_nil_iff]
        intro x hx
        obtain ⟨y, hy, hxy⟩ := List.mem_map.mp hx
        rw [← hxy]
        simp [hut]
      rw [hnil, List.append_nil]
  | retire u k => rw [step_retire, retireOp_trace]

theorem run_trace_filter_const {t : Topic} {s : BState} {as : List Act}
    (hs : findWatcher s.watchers t = none)
    (h : ∀ a ∈ as, isWatchOf t a = false) :
    ((run s as).trace).filter (fun e => e.1 == t)
        = (s.trace).filter (fun e => e.1 == t) ∧
    findWatcher ((run s as).watchers) t = none := by
  induction as generalizing s with
  | nil => exact ⟨rfl, hs⟩
  | cons a as ih =>
    have h1 := step_not_watched hs (h a (List.mem_cons_self a as))
    have h2 := step_trace_no_topic a hs
    obtain ⟨ht, hn⟩ := ih h1 (fun b hb => h b (List.mem_cons_of_mem a hb))
    rw [run_cons]
    exact ⟨by rw [ht, h2], hn⟩

/-- C4: once `ignore(topic)` returns the Watcher is gone and its worker
stopped, so in any continuation that does not watch the topic again — waves,
polls, retires and actions on other topics included — no further callback
invocation for that topic is ever logged. -/
theorem ignore_stops_callbacks (s : BState) (t : Topic) (as : List Act)
    (h : ∀ a ∈ as, isWatchOf t a = false) :
    ((run (ignoreOp s t) as).trace).filter (fun e => e.1 == t)
      = ((ignoreOp s t).trace).filter (fun e => e.1 == t) :=
  (run_trace_filter_const (findWatcher_ignoreOp s t) h).1

/-- C4 witness: a Banner that delivered one event on "test", then ignored the
topic; further waves and polls on "test" (and on another topic) add no "test"
invocation to the log. -/
theorem ignore_stops_callbacks_witness :
    ([Act.wave "test" 2 2, Act.poll "test", Act.wave "other" 3 3,
        Act.watch "other" 9 none, Act.poll "other",
        Act.retire "test" 0].all (fun a => !(isWatchOf "test" a))) = true ∧
    ((run (ignoreOp (run initDefault
          [Act.watch "test" 7 none, Act.wave "test" 1 1, Act.poll "test"]) "test")
        [Act.wave "test" 2 2, Act.poll "test", Act.wave "other" 3 3,
          Act.watch "other" 9 none, Act.poll "other",
          Act.retire "test" 0]).trace).filter (fun e => e.1 == "test")
      = ((ignoreOp (run initDefault
          [Act.watch "test" 7 none, Act.wave "test" 1 1, Act.poll "test"])
          "test").trace).filter (fun e => e.1 == "test") :=
  ⟨by decide,
    ignore_stops_callbacks
      (run initDefault [Act.watch "test" 7 none, Act.wave "test" 1 1, Act.poll "test"])
      "test"
      [Act.wave "test" 2 2, Act.poll "test", Act.wave "other" 3 3,
        Act.watch "other" 9 none, Act.poll "other", Act.retire "test" 0]
      (by decide)⟩

/-! ### Claim C3 -/

theorem step_watch_of_none {s : BState} {t : Topic} (cb : Nat) (ib : Option SeqId)
    (h : findWatcher s.watchers t = none) :
    step s (Act.watch t cb ib)
      = { s with watchers := s.watchers ++ [⟨t, cb, ib⟩] } := by
  rw [step_watch_eq]
  unfold watchOp
  rw [h]
  rfl

theorem findWatcher_singleton (t : Topic) (cb : Nat) (ib : Option SeqId) :
    findWatcher [⟨t, cb, ib⟩] t = some ⟨t, cb, ib⟩ := by
  simp [findWatcher, List.find?_cons]

theorem pollOp_full_delivery {s : BState} {t : Topic} {cb : Nat}
    (hw : findWatcher s.watchers t = some ⟨t, cb, none⟩) :
    (pollOp s t).trace
      = s.trace ++ (listTopic s.files t).map (fun e => (t, cb, e.2)) := by
  unfold pollOp
  rw [hw]
  rfl

theorem step_trace_extends (s : BState) (a : Act) :
    ∃ u, (step s a).trace = s.trace ++ u := by
  cases a with
  | wave u p time => exact ⟨[], by rw [step_wave, waveOp_trace, List.append_nil]⟩
  | watch u cb ib =>
    refine ⟨[], ?_⟩
    rw [List.append_nil, step_watch_eq]
    unfold watchOp
    by_cases hw : (findWatcher s.watchers u).isSome = true
    · simp only [hw, if_true]
    · have hw2 : (findWatcher s.watchers u).isSome = false := by simpa using hw
      simp only [hw2, Bool.false_eq_true, if_false]
  | ignore u => exact ⟨[], by rw [step_ignore_eq, ignoreOp_trace, List.append_nil]⟩
  | poll u =>
    rw [step_poll]
    unfold pollOp
    cases hfw : findWatcher s.watchers u with
    | none => exact ⟨[], by rw [List.append_nil]⟩
    | some w =>
      exact ⟨(newEvents (listTopic s.files u) w.watermark).map
        (fun e => (u, w.cb, e.2)), rfl⟩
  | retire u k => exact ⟨[], by rw [step_retire, retireOp_trace, List.append_nil]⟩

theorem run_trace_extends (s : BState) (bs : List Act) :
    ∃ u, (run s bs).trace = s.trace ++ u := by
  induction bs generalizing s with
  | nil => exact ⟨[], (List.append_nil _).symm⟩
  | cons a bs ih =>
    obtain ⟨u1, h1⟩ := step_trace_extends s a
    obtain ⟨u2, h2⟩ := ih (step s a)
    exact ⟨u1 ++ u2, by rw [run_cons, h2, h1, List.append_assoc]⟩

theorem map_deliver (t : Topic) (cb : Nat) (l : List (Payload × Nat)) :
    ((l.map (fun q => ((q.2 : SeqId), (q.1 : Payload)))).map (fun e => (t, cb, e.2)))
      = l.map (fun q => (t, cb, q.1)) := by
  induction l with
  | nil => rfl
  | cons q l ih => simp [ih]

theorem poll_after_watch_after_waves {s : BState} {t : Topic} (cb : Nat)
    {qts : List (Payload × Nat)} {M : List (SeqId × Payload)}
    (hM : listTopic s.files t = M)
    (hw : s.watchers = [])
    (htr : s.trace = [])
    (hmax : s.maxEvents = defaultMaxEvents)
    (hfreshM : ∀ x ∈ M, ∀ q ∈ qts, x.1 < q.2)
    (hqts : qts.Pairwise (fun a b => a.2 < b.2))
    (hcount : M.length + qts.length ≤ defaultMaxEvents) :
    (pollOp (run (step s (Act.watch t cb none)) (waves t qts)) t).trace
      = (M ++ qts.map (fun q => (q.2, q.1))).map (fun e => (t, cb, e.2)) := by
  have hfw : findWatcher s.watchers t = none := by
    rw [hw]
    rfl
  have hs2 := step_watch_of_none cb none hfw
  have hs2w : (step s (Act.watch t cb none)).watchers = [⟨t, cb, none⟩] := by
    rw [hs2]
    show s.watchers ++ [⟨t, cb, none⟩] = [⟨t, cb, none⟩]
    rw [hw]
    rfl
  have hs2f : (step s (Act.watch t cb none)).files = s.files := by rw [hs2]
  have hs2tr : (step s (Act.watch t cb none)).trace = s.trace := by rw [hs2]
  have hfresh2 : ∀ x ∈ topicFiles (step s (Act.watch t cb none)).files t,
      ∀ q ∈ qts, x.1 < q.2 := by
    rw [hs2f]
    intro x hx
    have hxl : x ∈ listTopic s.files t := mem_listTopic.mpr hx
    rw [hM] at hxl
    exact hfreshM x hxl
  have hcount2 : countTopic (step s (Act.watch t cb none)).files t + qts.length
      ≤ (step s (Act.watch t cb none)).maxEvents := by
    rw [hs2f, step_maxEvents, hmax]
    have hc : countTopic s.files t = M.length := by
      rw [← length_listTopic, hM]
    omega
  obtain ⟨hf3, hM3, hw3, htr3⟩ := run_waves hfresh2 hqts hcount2
  have hM3f : listTopic (run (step s (Act.watch t cb none)) (waves t qts)).files t
      = M ++ qts.map (fun q => (q.2, q.1)) := by
    rw [hM3, hs2f, hM]
  have hw3f : (run (step s (Act.watch t cb none)) (waves t qts)).watchers
      = [⟨t, cb, none⟩] := by
    rw [hw3, hs2w]
  have htr3f : (run (step s (Act.watch t cb none)) (waves t qts)).trace = [] := by
    rw [htr3, hs2tr, htr]
  have hfw3 : findWatcher
      (run (step s (Act.watch t cb none)) (waves t qts)).watchers t
      = some ⟨t, cb, none⟩ := by
    rw [hw3f]
    exact findWatcher_singleton t cb none
  rw [pollOp_full_delivery hfw3, htr3f, hM3f, List.nil_append]

/-- C3: a Watcher started with `watch(topic, callback)` and no `ignore_before`
on a topic holding the `m` pre-existing events of `pts` delivers, at its first
poll, first those `m` payloads in ascending sequence-id (= wave) order and
only then the payloads waved after the watch started; every invocation logged
later in the run comes after these, so all `m` historical deliveries precede
the delivery of any event waved after the watch. -/
theorem watch_delivers_history_first (t : Topic) (cb : Nat)
    (pts qts : List (Payload × Nat))
    (hinc : (pts ++ qts).Pairwise (fun a b => a.2 < b.2))
    (hlen : (pts ++ qts).length ≤ defaultMaxEvents) :
    (pollOp (run initDefault
        (waves t pts ++ Act.watch t cb none :: waves t qts)) t).trace
      = pts.map (fun q => (t, cb, q.1)) ++ qts.map (fun q => (t, cb, q.1)) ∧
    ∀ bs, ∃ u,
      (run (pollOp (run initDefault
          (waves t pts ++ Act.watch t cb none :: waves t qts)) t) bs).trace
        = (pollOp (run initDefault
          (waves t pts ++ Act.watch t cb none :: waves t qts)) t).trace ++ u := by
  obtain ⟨hpts_pw, hqts_pw, hcross⟩ := List.pairwise_append.mp hinc
  have hlen1 : pts.length ≤ defaultMaxEvents := by
    rw [List.length_append] at hlen
    omega
  obtain ⟨hM1, hw1, htr1⟩ := listTopic_waves_init t hpts_pw hlen1
  have hrw : run initDefault (waves t pts ++ Act.watch t cb none :: waves t qts)
      = run (step (run initDefault (waves t pts)) (Act.watch t cb none))
          (waves t qts) := by
    rw [run_append, run_cons]
  have hmax1 : (run initDefault (waves t pts)).maxEvents = defaultMaxEvents :=
    run_maxEvents _ _
  have hfreshM : ∀ x ∈ pts.map (fun q => ((q.2 : SeqId), (q.1 : Payload))),
      ∀ q ∈ qts, x.1 < q.2 := by
    intro x hx q hq
    obtain ⟨a, ha, hax⟩ := List.mem_map.mp hx
    rw [← hax]
    exact hcross a ha q hq
  have hcount : (pts.map (fun q => ((q.2 : SeqId), (q.1 : Payload)))).length
      + qts.length ≤ defaultMaxEvents := by
    rw [List.length_map]
    rw [List.length_append] at hlen
    omega
  have h1 := poll_after_watch_after_waves cb hM1 hw1 htr1 hmax1
    hfreshM hqts_pw hcount
  constructor
  · rw [hrw, h1, List.map_append, map_deliver, map_deliver]
  · intro bs
    exact run_trace_extends _ bs

/-- C3 witness: one pre-existing event (payload 10), then a watch, then one
further wave (payload 20); the first poll logs 10 before 20, and a later poll
only appends. -/
theorem watch_delivers_history_first_witness :
    (([((10 : Payload), (1 : Nat))] ++ [((20 : Payload), (2 : Nat))]).Pairwise
        (fun a b => a.2 < b.2)) ∧
    (([((10 : Payload), (1 : Nat))] ++ [((20 : Payload), (2 : Nat))]).length
        ≤ defaultMaxEvents) ∧
    (pollOp (run initDefault
        (waves "test" [(10, 1)] ++ Act.watch "test" 7 none :: waves "test" [(20, 2)]))
        "test").trace
      = ([((10 : Payload), (1 : Nat))]).map (fun q => ("test", 7, q.1))
        ++ ([((20 : Payload), (2 : Nat))]).map (fun q => ("test", 7, q.1)) ∧
    ∃ u, (run (pollOp (run initDefault
        (waves "test" [(10, 1)] ++ Act.watch "test" 7 none :: waves "test" [(20, 2)]))
        "test") [Act.poll "test"]).trace
      = (pollOp (run initDefault
        (waves "test" [(10, 1)] ++ Act.watch "test" 7 none :: waves "test" [(20, 2)]))
        "test").trace ++ u :=
  ⟨by decide, by decide,
    (watch_delivers_history_first "test" 7 [(10, 1)] [(20, 2)]
      (by decide) (by decide)).1,
    (watch_delivers_history_first "test" 7 [(10, 1)] [(20, 2)]
      (by decide) (by decide)).2 [Act.poll "test"]⟩

end Banners
